import Mathlib

/-!
Verification of the web-summariser core: the flat frontier crawl
(`crawl_company_links` in `crawler.py` / `summariser.py`) and the text
distiller (`clean_markdown` in `markdown_cleaner.py`).

Strings are modelled as `List Char`.  Python's `\s`, `str.strip`,
`str.split` are modelled over the ASCII whitespace characters.  The BM25
scoring function of `rank_bm25` computes floating-point scores; it is
modelled as an explicit scoring-function parameter (`Scorer`) so that the
threshold/filter logic of `clean_markdown` can be settled for every
scoring function.  Recursive text scanners are written with an explicit
fuel argument (always called with `length + 1`, enough because every
step consumes at least one character) so that all definitions reduce in
the kernel.
-/

abbrev Str := List Char

/-- ASCII whitespace, as matched by Python's `\s`, `str.strip()` and `str.split()`. -/
def isPySpace (c : Char) : Bool :=
  c == ' ' || c == '\t' || c == '\n' || c == '\r' || c == '\x0b' || c == '\x0c'

/-- Characters admitted by `[^\s)]` — the character class of the URL regex
`https?://[^\s)]+` in `clean_markdown`. -/
def isUrlChar (c : Char) : Bool := !isPySpace c && c != ')'

/-- Python `str.strip()`: remove leading and trailing whitespace. -/
def pyStrip (s : Str) : Str :=
  ((s.dropWhile isPySpace).reverse.dropWhile isPySpace).reverse

/-- Position of the last newline in a string, counted from the head. -/
def lastNLpos : Str → Option Nat
  | [] => none
  | c :: r =>
    match lastNLpos r with
    | some i => some (i + 1)
    | none => if c = '\n' then some 0 else none

/-- Helper for the regex `\n\s*\n` of `clean_markdown` step 1: given the text
after a leading newline, find the maximal whitespace run, and if it contains a
newline return the text after the last such newline (the greedy `\s*` followed
by the final `\n` consumes exactly up to there). -/
def cutAfterLastNL (rest : Str) : Option Str :=
  match lastNLpos (rest.takeWhile isPySpace) with
  | some i => some (rest.drop (i + 1))
  | none => none

/-- Fueled model of `re.sub(r'\n\s*\n', '\n\n', s)`: scan left to right; at a
newline whose following whitespace run contains another newline, emit a single
blank line and continue after the last newline of the run. -/
def normalizeWsF : Nat → Str → Str
  | 0, s => s
  | _ + 1, [] => []
  | f + 1, c :: rest =>
    if c = '\n' then
      match cutAfterLastNL rest with
      | some rest' => '\n' :: '\n' :: normalizeWsF f rest'
      | none => c :: normalizeWsF f rest
    else c :: normalizeWsF f rest

/-- Whitespace normalisation (step 1 of `clean_markdown`). -/
def normalizeWs (s : Str) : Str := normalizeWsF (s.length + 1) s

/-- Attempt of the regex `https?://[^\s)]+` at the head of `s`: on success
return the length of the (maximal) match.  The alternation `https?` prefers
the longer literal, and the final `+` requires a non-empty run. -/
def matchUrlAt (s : Str) : Option Nat :=
  if ("https://".data).isPrefixOf s then
    let run := (s.drop 8).takeWhile isUrlChar
    if run = ([] : Str) then none else some (8 + run.length)
  else if ("http://".data).isPrefixOf s then
    let run := (s.drop 7).takeWhile isUrlChar
    if run = ([] : Str) then none else some (7 + run.length)
  else none

/-- Fueled model of `re.findall(r"https?://[^\s)]+", s)`: try the pattern at
each position; on failure advance one character, on success record the match
and continue after it (non-overlapping matches). -/
def findallF : Nat → Str → List Str
  | 0, _ => []
  | _ + 1, [] => []
  | f + 1, c :: rest =>
    match matchUrlAt (c :: rest) with
    | some n => (c :: rest).take n :: findallF f ((c :: rest).drop n)
    | none => findallF f rest

/-- URL extraction (step 2 of `clean_markdown`). -/
def findall (s : Str) : List Str := findallF (s.length + 1) s

/-- A segment of the regex scan of a text: either a single non-match
character or one maximal URL match. -/
inductive Seg where
  | gap : Char → Seg
  | url : Str → Seg

/-- The same scan as `findall`, but keeping the non-match characters, so that
the scanned text can be reassembled from its segments. -/
def segsF : Nat → Str → List Seg
  | 0, _ => []
  | _ + 1, [] => []
  | f + 1, c :: rest =>
    match matchUrlAt (c :: rest) with
    | some n => Seg.url ((c :: rest).take n) :: segsF f ((c :: rest).drop n)
    | none => Seg.gap c :: segsF f rest

/-- Segment decomposition of a text under the URL regex scan. -/
def segs (s : Str) : List Seg := segsF (s.length + 1) s

/-- Render a segment by its original text. -/
def origRender : Seg → Str
  | Seg.gap c => [c]
  | Seg.url m => m

/-- Concatenate the renderings of a segment list. -/
def catSegs (f : Seg → Str) : List Seg → Str
  | [] => []
  | s :: S => f s ++ catSegs f S

/-- Fueled model of `re.sub(re.escape(pat), rep, s)` for a literal pattern:
replace the non-overlapping, leftmost occurrences of `pat`, continuing after
each replacement.  (The `pat = []` guard only makes the function total; the
program only ever substitutes extracted URLs, which are non-empty.) -/
def replaceAllF (pat rep : Str) : Nat → Str → Str
  | 0, s => s
  | _ + 1, [] => []
  | f + 1, c :: rest =>
    if !pat.isEmpty && pat.isPrefixOf (c :: rest) then
      rep ++ replaceAllF pat rep f ((c :: rest).drop pat.length)
    else
      c :: replaceAllF pat rep f rest

/-- Literal global substitution, as used by the citation loop of `clean_markdown`. -/
def replaceAll (pat rep s : Str) : Str := replaceAllF pat rep (s.length + 1) s

/-- Decimal digit character. -/
def digitChar (d : Nat) : Char := Char.ofNat (48 + d)

/-- Fueled decimal rendering of a natural number (Python `str(idx)`). -/
def natToDecF : Nat → Nat → Str
  | 0, _ => []
  | f + 1, n => if n < 10 then [digitChar n] else natToDecF f (n / 10) ++ [digitChar (n % 10)]

/-- Decimal rendering of a natural number. -/
def natToDec (n : Nat) : Str := natToDecF (n + 1) n

/-- The citation marker `f"[{idx}]"`. -/
def marker (i : Nat) : Str := '[' :: (natToDec i ++ [']'])

/-- Python `enumerate(l, start=n)`. -/
def pyEnumerate {α : Type} (n : Nat) : List α → List (Nat × α)
  | [] => []
  | a :: l => (n, a) :: pyEnumerate (n + 1) l

/-- Python `list(dict.fromkeys(l))`: deduplicate keeping first occurrences in order. -/
def pyDedup (l : List Str) : List Str :=
  l.foldl (fun acc u => if u ∈ acc then acc else acc ++ [u]) []

/-- Sentence-final punctuation of the split regex `(?<=[.!?])\s+`. -/
def isSentEnd (c : Char) : Bool := c == '.' || c == '!' || c == '?'

/-- Whether the reversed accumulator of the sentence splitter ends (in text
order) with sentence-final punctuation — the lookbehind `(?<=[.!?])`. -/
def headSentEnd : Str → Bool
  | [] => false
  | p :: _ => isSentEnd p

/-- Fueled model of `re.split(r'(?<=[.!?])\s+', s)`: a separator is a maximal
whitespace run immediately preceded by `.`, `!` or `?`.  The accumulator holds
the current fragment reversed. -/
def sentFragsF : Nat → Str → Str → List Str
  | 0, _, acc => [acc.reverse]
  | _ + 1, [], acc => [acc.reverse]
  | f + 1, c :: rest, acc =>
    if isPySpace c && headSentEnd acc then
      acc.reverse :: sentFragsF f ((c :: rest).dropWhile isPySpace) []
    else
      sentFragsF f rest (c :: acc)

/-- The sentence list of `clean_markdown` step 3:
`[s.strip() for s in re.split(r'(?<=[.!?])\s+', t) if s.strip()]`. -/
def sentencesOf (t : Str) : List Str :=
  ((sentFragsF (t.length + 1) t []).map pyStrip).filter (fun s => !s.isEmpty)

/-- Fueled model of Python `str.split()` (no argument): split on whitespace
runs, discarding empty fragments. -/
def pyWordsF : Nat → Str → List Str
  | 0, _ => []
  | _ + 1, [] => []
  | f + 1, c :: rest =>
    if isPySpace c then pyWordsF f rest
    else ((c :: rest).takeWhile (fun x => !isPySpace x)) ::
      pyWordsF f ((c :: rest).dropWhile (fun x => !isPySpace x))

/-- Python `str.split()`. -/
def pyWords (s : Str) : List Str := pyWordsF (s.length + 1) s

/-- Python `max(scores) if scores.size else 0` over rational scores. -/
def pyMax (l : List ℚ) : ℚ :=
  match l with
  | [] => 0
  | a :: r => r.foldl max a

/-- Python `" ".join(l)`. -/
def joinSp : List Str → Str
  | [] => []
  | [s] => s
  | s :: r => s ++ ' ' :: joinSp r

/-- The scoring interface of `BM25Okapi(tokenized_sentences).get_scores(query_tokens)`:
first argument the tokenised corpus, second the query tokens, result one score
per corpus document.  `rank_bm25` computes floating-point BM25 scores; the
threshold logic of `clean_markdown` is verified for every scoring function. -/
abbrev Scorer := List (List Str) → List Str → List ℚ

/-- Step 1 of `clean_markdown`: `re.sub(r'\n\s*\n', '\n\n', raw_markdown.strip())`. -/
def cleanNorm (raw : Str) : Str := normalizeWs (pyStrip raw)

/-- Step 2a of `clean_markdown`: the deduplicated URL list
`list(dict.fromkeys(re.findall(r"https?://[^\s)]+", cleaned)))`. -/
def extractUrls (t : Str) : List Str := pyDedup (findall t)

/-- The citation table: each distinct URL paired with its 1-based id in order
of first appearance (`enumerate(unique_urls, start=1)`). -/
def citeTable (t : Str) : List (Nat × Str) := pyEnumerate 1 (extractUrls t)

/-- Step 2b of `clean_markdown`: the sequential substitution loop
`for idx, url in enumerate(unique_urls, 1): cleaned = re.sub(re.escape(url), f"[{idx}]", cleaned)`. -/
def citeReplace (t : Str) : Str :=
  (citeTable t).foldl (fun txt p => replaceAll p.2 (marker p.1) txt) t

/-- Steps 3 of `clean_markdown`: split into sentences; if there is at least
one sentence, score them, compute `threshold = 0.5 * max_score` with
`max_score = max(scores) if scores.size else 0`, and keep the sentences with
`score >= threshold` joined by single spaces; otherwise leave the text as is. -/
def distillBody (score : Scorer) (t : Str) : Str :=
  let sentences := sentencesOf t
  if sentences.isEmpty then t
  else
    let scores := score (sentences.map pyWords) (pyWords t)
    let threshold := pyMax scores / 2
    joinSp (((sentences.zip scores).filter (fun p => decide (threshold ≤ p.2))).map Prod.fst)

/-- One reference line `f"{idx}. {url}\n"`. -/
def refLine (p : Nat × Str) : Str := natToDec p.1 ++ ('.' :: ' ' :: p.2) ++ ['\n']

/-- The reference heading appended before the citation lines. -/
def refHeader : Str := "\n\n### References\n".data

/-- Step 4 of `clean_markdown`: the reference lines accumulated over
`citations.items()` in insertion order. -/
def refSection (table : List (Nat × Str)) : Str :=
  table.foldl (fun a p => a ++ refLine p) []

/-- Simple concatenation of a list of strings (for stating `refSection`'s shape). -/
def catList (l : List Str) : Str := l.foldr (· ++ ·) []

/-- The text distiller `clean_markdown(raw_markdown)` of `markdown_cleaner.py`,
with the BM25 scoring function abstracted as a parameter. -/
def clean_markdown (score : Scorer) (raw_markdown : Str) : Str :=
  let t := citeReplace (cleanNorm raw_markdown)
  let body := distillBody score t
  if (citeTable (cleanNorm raw_markdown)).isEmpty then body
  else body ++ refHeader ++ refSection (citeTable (cleanNorm raw_markdown))

/-- Zero-based index of the first occurrence of `u` in a list. -/
def idxOf (u : Str) : List Str → Nat
  | [] => 0
  | v :: l => if v = u then 0 else idxOf u l + 1

/-- The rendering of a full segment decomposition once every URL slot carries
its citation marker: this is the specified outcome of the citation pass. -/
def citeRender (U : List Str) : Seg → Str
  | Seg.gap c => [c]
  | Seg.url m => marker (idxOf m U + 1)

/-- Boolean substring test: `u` occurs contiguously inside `v`. -/
def subSegB (u v : Str) : Bool := v.tails.any (fun t => u.isPrefixOf t)

/-- The crawl result of one page: `result.markdown` of `crawl4ai`'s `arun`. -/
structure Page where
  markdown : Str

/-- Lookup in the association-list model of a Python `dict`. -/
def dictGet (d : List (Str × Str)) (k : Str) : Option Str :=
  match d with
  | [] => none
  | (k', v) :: r => if k' = k then some v else dictGet r k

/-- The key list of the `dict` model, in insertion order. -/
def dictKeys (d : List (Str × Str)) : List Str := d.map Prod.fst

/-- Python `d[k] = v`: update in place if the key exists, else append. -/
def dictSet (d : List (Str × Str)) (k : Str) (v : Str) : List (Str × Str) :=
  if k ∈ dictKeys d then d.map (fun p => if p.1 = k then (k, v) else p)
  else d ++ [(k, v)]

/-- The crawl `crawl_company_links(relevant_links, max_depth)` of `crawler.py`
and `summariser.py`: one `crawler.arun` task per element of `relevant_links`,
gathered with `return_exceptions=True`; results that are exceptions are
skipped, the others are stored as `crawled_data[url] = result.markdown`.
The per-URL fetch outcome is the parameter `fetch` (an `Except` models a task
that raised); `asyncio.gather` returns the outcomes in task order, so the
result is the left fold over the seed list. -/
def crawl_company_links {ε : Type} (fetch : Str → Except ε Page)
    (relevant_links : List Str) : List (Str × Str) :=
  relevant_links.foldl
    (fun crawled_data url =>
      match fetch url with
      | Except.error _ => crawled_data
      | Except.ok result => dictSet crawled_data url result.markdown)
    []

/-- The list of URLs passed to `crawler.arun`, in task-creation order: the
comprehension `[crawler.arun(url=url, max_depth=max_depth) for url in relevant_links]`
creates exactly one fetch task per element of `relevant_links`. -/
def crawlFetchLog (relevant_links : List Str) : List Str :=
  relevant_links.map (fun url => url)

/-- Contiguous-substring relation: `u` occurs somewhere inside `v`. -/
def SubSeg (u v : Str) : Prop := ∃ a b, v = a ++ u ++ b

/-- Propositional form of `List.isPrefixOf`. -/
def PrefixP (u v : Str) : Prop := ∃ w, u ++ w = v

/-- The match carried by a URL slot, if any. -/
def urlOf : Seg → Option Str
  | Seg.gap _ => none
  | Seg.url m => some m

/-- Shape of a maximal match of `https?://[^\s)]+`: a scheme literal followed
by a non-empty run of URL characters. -/
def IsMatchStr (m : Str) : Prop :=
  ∃ pfx run, (pfx = "https://".data ∨ pfx = "http://".data) ∧ run ≠ [] ∧
    (∀ c ∈ run, isUrlChar c = true) ∧ m = pfx ++ run

/-- After a maximal URL match the scan either ends or resumes at a character
that cannot extend the match. -/
def BoundaryAfter : List Seg → Prop
  | [] => True
  | Seg.gap c :: _ => isUrlChar c = false
  | Seg.url _ :: _ => False

/-- Structural invariants of the segment decomposition produced by the regex
scan: every gap character was a failed match attempt (against the original
right context), and every URL slot holds a maximal match. -/
def GoodSegs : List Seg → Prop
  | [] => True
  | Seg.gap c :: S => matchUrlAt (c :: catSegs origRender S) = none ∧ GoodSegs S
  | Seg.url m :: S => IsMatchStr m ∧ BoundaryAfter S ∧ GoodSegs S

/-- Hybrid rendering of the text midway through the sequential substitution
loop: URLs already processed (members of `done`) appear as their citation
markers, the rest still appear literally. -/
def hrender (U done : List Str) : Seg → Str
  | Seg.gap c => [c]
  | Seg.url m => if m ∈ done then marker (idxOf m U + 1) else m

/-- Rendering after one more substitution step: slots holding `u` flip to `r`. -/
def flipRender (u r : Str) (f : Seg → Str) : Seg → Str
  | Seg.gap c => f (Seg.gap c)
  | Seg.url m => if m = u then r else f (Seg.url m)

/-! Concrete fixtures used by counterexamples and witnesses. -/

/-- Input on which one extracted URL is a proper prefix of another. -/
def cexRaw : Str := "http://a.com http://a.com/x".data

/-- Input whose extracted URLs are pairwise substring-free. -/
def rawC1 : Str := "See http://a.com and http://b.org here. http://a.com again.".data

/-- Input with two sentences and no URL. -/
def rawTwoSent : Str := "Alpha beta. Gamma delta.".data

/-- Input with two sentences and one URL used twice. -/
def rawUrlSent : Str := "Visit http://x.io now. Read http://x.io twice.".data

/-- A scorer returning fixed scores `[1, 4]`. -/
def scoreW : Scorer := fun _ _ => [1, 4]

/-- A scorer returning all-zero scores for a two-sentence corpus. -/
def scoreZ : Scorer := fun _ _ => [0, 0]

/-- A seed URL whose fetch succeeds. -/
def goodUrl : Str := "http://good.example/a".data

/-- A seed URL whose fetch raises. -/
def badUrl : Str := "http://bad.example/b".data

/-- A fetch assignment failing exactly on `badUrl`. -/
def fetchW : Str → Except Unit Page :=
  fun u => if u = badUrl then Except.error () else Except.ok ⟨"Good page text.".data⟩

/-- A fetch assignment succeeding with empty extracted text. -/
def fetchE : Str → Except Unit Page := fun _ => Except.ok ⟨[]⟩

/-! ### Prefix and substring basics -/

theorem isPrefixOf_true : ∀ {u v : Str}, u.isPrefixOf v = true ↔ PrefixP u v := by
  intro u
  induction u with
  | nil =>
    intro v
    simp [List.isPrefixOf, PrefixP]
  | cons a u ih =>
    intro v
    cases v with
    | nil => simp [List.isPrefixOf, PrefixP]
    | cons b v =>
      simp only [List.isPrefixOf, Bool.and_eq_true, beq_iff_eq, ih, PrefixP]
      constructor
      · rintro ⟨rfl, w, rfl⟩
        exact ⟨w, rfl⟩
      · rintro ⟨w, h⟩
        cases h
        exact ⟨rfl, w, rfl⟩

theorem prefixP_length {u v : Str} (h : PrefixP u v) : u.length ≤ v.length := by
  rcases h with ⟨w, rfl⟩
  simp

theorem prefixP_cases {l a b : Str} (h : PrefixP l (a ++ b)) :
    PrefixP l a ∨ (PrefixP a l ∧ PrefixP (l.drop a.length) b) := by
  induction a generalizing l with
  | nil =>
    right
    exact ⟨⟨l, rfl⟩, by simpa using h⟩
  | cons x a ih =>
    cases l with
    | nil => exact Or.inl ⟨x :: a, rfl⟩
    | cons y l =>
      rcases h with ⟨w, hw⟩
      rw [List.cons_append] at hw
      injection hw with h1 h2
      subst h1
      rcases ih ⟨w, h2⟩ with h' | ⟨⟨w', hw'⟩, h''⟩
      · rcases h' with ⟨w', hw'⟩
        exact Or.inl ⟨w', by rw [List.cons_append, hw']⟩
      · refine Or.inr ⟨⟨w', by rw [List.cons_append, hw']⟩, ?_⟩
        simpa using h''

theorem prefixP_head {x y : Char} {l m : Str} (h : PrefixP (x :: l) (y :: m)) :
    x = y ∧ PrefixP l m := by
  rcases h with ⟨w, hw⟩
  injection hw with h1 h2
  exact ⟨h1, w, h2⟩

theorem subSegB_of_subSeg {u v : Str} (h : SubSeg u v) : subSegB u v = true := by
  rcases h with ⟨a, b, rfl⟩
  have hmem : (u ++ b) ∈ (a ++ u ++ b).tails := by
    rw [List.append_assoc]
    induction a with
    | nil => cases u <;> cases b <;> simp [List.tails]
    | cons x a iha =>
      simp only [List.cons_append, List.tails, List.mem_cons]
      exact Or.inr iha
  refine List.any_eq_true.mpr ⟨u ++ b, hmem, ?_⟩
  exact isPrefixOf_true.mpr ⟨b, rfl⟩

/-! ### The literal substitution `replaceAll` -/

theorem replaceAllF_fuel {pat rep : Str} :
    ∀ (f₁ f₂ : Nat) (s : Str), s.length < f₁ → s.length < f₂ →
      replaceAllF pat rep f₁ s = replaceAllF pat rep f₂ s := by
  intro f₁
  induction f₁ with
  | zero => exact fun f₂ s h1 _ => absurd h1 (Nat.not_lt_zero _)
  | succ f₁ ih =>
    intro f₂ s h1 h2
    match f₂, s with
    | 0, s => exact absurd h2 (Nat.not_lt_zero _)
    | f₂ + 1, [] => rfl
    | f₂ + 1, c :: rest =>
      by_cases hc : (!pat.isEmpty && pat.isPrefixOf (c :: rest)) = true
      · have hpat : 0 < pat.length := by
          have hc' := hc
          simp only [Bool.and_eq_true] at hc'
          cases pat with
          | nil => simp at hc'
          | cons a l => simp
        have hl1 : ((c :: rest).drop pat.length).length < f₁ := by
          rw [List.length_drop]
          simp only [List.length_cons] at h1 ⊢
          omega
        have hl2 : ((c :: rest).drop pat.length).length < f₂ := by
          rw [List.length_drop]
          simp only [List.length_cons] at h2 ⊢
          omega
        simp only [replaceAllF, hc, if_true]
        rw [ih _ _ hl1 hl2]
      · replace hc := Bool.of_not_eq_true hc
        have hl1 : rest.length < f₁ := by simp only [List.length_cons] at h1; omega
        have hl2 : rest.length < f₂ := by simp only [List.length_cons] at h2; omega
        simp only [replaceAllF, hc, Bool.false_eq_true, if_false]
        rw [ih _ _ hl1 hl2]

theorem replaceAll_cons_pos {pat rep : Str} {c : Char} {rest : Str}
    (h : (!pat.isEmpty && pat.isPrefixOf (c :: rest)) = true) :
    replaceAll pat rep (c :: rest) = rep ++ replaceAll pat rep ((c :: rest).drop pat.length) := by
  have hpat : 0 < pat.length := by
    have h' := h
    simp only [Bool.and_eq_true] at h'
    cases pat with
    | nil => simp at h'
    | cons a l => simp
  show replaceAllF pat rep ((c :: rest).length + 1) (c :: rest) = _
  simp only [replaceAllF, h, if_true]
  congr 1
  apply replaceAllF_fuel
  · rw [List.length_drop]
    simp only [List.length_cons]
    omega
  · exact Nat.lt_succ_self _

theorem replaceAll_cons_neg {pat rep : Str} {c : Char} {rest : Str}
    (h : (!pat.isEmpty && pat.isPrefixOf (c :: rest)) = false) :
    replaceAll pat rep (c :: rest) = c :: replaceAll pat rep rest := by
  show replaceAllF pat rep ((c :: rest).length + 1) (c :: rest) = _
  simp only [replaceAllF, h, Bool.false_eq_true, if_false]
  rfl

theorem replaceAll_walk {u r : Str} :
    ∀ (X T : Str), (∀ Y Z, X = Y ++ Z → Z ≠ [] → ¬ PrefixP u (Z ++ T)) →
      replaceAll u r (X ++ T) = X ++ replaceAll u r T := by
  intro X
  induction X with
  | nil => intro T _; simp
  | cons x X ih =>
    intro T h
    have hnp : ¬ PrefixP u (x :: (X ++ T)) := by
      have h0 := h [] (x :: X) rfl (by simp)
      exact h0
    have hcond : (!u.isEmpty && u.isPrefixOf (x :: (X ++ T))) = false := by
      cases hp : u.isPrefixOf (x :: (X ++ T)) with
      | true => exact absurd (isPrefixOf_true.mp hp) hnp
      | false => simp
    have hrec := ih T (fun Y Z hXZ hZ => h (x :: Y) Z (by rw [List.cons_append, hXZ]) hZ)
    rw [List.cons_append, replaceAll_cons_neg hcond, hrec]
    rfl

/-! ### The regex scan: matches and the segment decomposition -/

theorem dropWhile_head {p : Char → Bool} :
    ∀ (l : Str) {c : Char} {rest : Str}, l.dropWhile p = c :: rest → p c = false := by
  intro l
  induction l with
  | nil => intro c rest h; simp at h
  | cons a l ih =>
    intro c rest h
    rw [List.dropWhile_cons] at h
    by_cases hp : p a
    · rw [if_pos hp] at h
      exact ih h
    · rw [if_neg hp] at h
      injection h with h1 _
      subst h1
      exact Bool.of_not_eq_true hp

theorem drop_len_append {a b : Str} {n : Nat} (h : a.length = n) : (a ++ b).drop n = b := by
  subst h
  exact List.drop_left _ _

theorem take_len_append {a b : Str} {n : Nat} (h : a.length = n) : (a ++ b).take n = a := by
  subst h
  exact List.take_left _ _

theorem matchUrlAt_some {s : Str} {n : Nat} (h : matchUrlAt s = some n) :
    ∃ pfx run,
      (pfx = "https://".data ∨ pfx = "http://".data) ∧ run ≠ [] ∧
      (∀ c ∈ run, isUrlChar c = true) ∧
      s.take n = pfx ++ run ∧ n = pfx.length + run.length ∧
      (s.drop n = [] ∨ ∃ c2 rest2, s.drop n = c2 :: rest2 ∧ isUrlChar c2 = false) := by
  unfold matchUrlAt at h
  by_cases h8 : ("https://".data).isPrefixOf s
  · rw [if_pos h8] at h
    rcases isPrefixOf_true.mp h8 with ⟨w, hw⟩
    have hdrop : s.drop 8 = w := by
      rw [← hw]
      exact drop_len_append rfl
    rw [hdrop] at h
    by_cases hr : w.takeWhile isUrlChar = ([] : Str)
    · rw [if_pos hr] at h
      exact absurd h (by simp)
    · rw [if_neg hr] at h
      injection h with hn
      have hsw : s = ("https://".data ++ w.takeWhile isUrlChar) ++ w.dropWhile isUrlChar := by
        rw [List.append_assoc, List.takeWhile_append_dropWhile, hw]
      have hlen : ("https://".data ++ w.takeWhile isUrlChar).length = n := by
        rw [List.length_append, ← hn]
        rfl
      refine ⟨"https://".data, w.takeWhile isUrlChar, Or.inl rfl, hr,
        fun c hc => List.mem_takeWhile_imp hc, ?_, ?_, ?_⟩
      · rw [hsw, take_len_append hlen]
      · rw [← hn]
        rfl
      · rw [hsw, drop_len_append hlen]
        cases hd : w.dropWhile isUrlChar with
        | nil => exact Or.inl rfl
        | cons c2 rest2 => exact Or.inr ⟨c2, rest2, rfl, dropWhile_head w hd⟩
  · rw [if_neg h8] at h
    by_cases h7 : ("http://".data).isPrefixOf s
    · rw [if_pos h7] at h
      rcases isPrefixOf_true.mp h7 with ⟨w, hw⟩
      have hdrop : s.drop 7 = w := by
        rw [← hw]
        exact drop_len_append rfl
      rw [hdrop] at h
      by_cases hr : w.takeWhile isUrlChar = ([] : Str)
      · rw [if_pos hr] at h
        exact absurd h (by simp)
      · rw [if_neg hr] at h
        injection h with hn
        have hsw : s = ("http://".data ++ w.takeWhile isUrlChar) ++ w.dropWhile isUrlChar := by
          rw [List.append_assoc, List.takeWhile_append_dropWhile, hw]
        have hlen : ("http://".data ++ w.takeWhile isUrlChar).length = n := by
          rw [List.length_append, ← hn]
          rfl
        refine ⟨"http://".data, w.takeWhile isUrlChar, Or.inr rfl, hr,
          fun c hc => List.mem_takeWhile_imp hc, ?_, ?_, ?_⟩
        · rw [hsw, take_len_append hlen]
        · rw [← hn]
          rfl
        · rw [hsw, drop_len_append hlen]
          cases hd : w.dropWhile isUrlChar with
          | nil => exact Or.inl rfl
          | cons c2 rest2 => exact Or.inr ⟨c2, rest2, rfl, dropWhile_head w hd⟩
    · rw [if_neg h7] at h
      exact absurd h (by simp)

theorem matchUrlAt_pos {s : Str} {n : Nat} (h : matchUrlAt s = some n) :
    0 < n ∧ n ≤ s.length := by
  obtain ⟨pfx, run, hpfx, -, -, htake, hn, -⟩ := matchUrlAt_some h
  constructor
  · rcases hpfx with rfl | rfl <;> (rw [hn]; simp)
  · have hlen := congrArg List.length htake
    rw [List.length_take, List.length_append] at hlen
    omega

theorem catSegs_orig_segsF :
    ∀ (f : Nat) (s : Str), s.length < f → catSegs origRender (segsF f s) = s := by
  intro f
  induction f with
  | zero => exact fun s h => absurd h (Nat.not_lt_zero _)
  | succ f ih =>
    intro s h
    match s with
    | [] => rfl
    | c :: rest =>
      cases hm : matchUrlAt (c :: rest) with
      | some n =>
        obtain ⟨hn0, hnle⟩ := matchUrlAt_pos hm
        simp only [segsF, hm, catSegs, origRender]
        rw [ih _ (by rw [List.length_drop]; simp only [List.length_cons] at h ⊢; omega)]
        exact List.take_append_drop n (c :: rest)
      | none =>
        simp only [segsF, hm, catSegs, origRender]
        rw [ih _ (by simp only [List.length_cons] at h; omega)]
        rfl

theorem segs_orig (s : Str) : catSegs origRender (segs s) = s :=
  catSegs_orig_segsF _ s (Nat.lt_succ_self _)

theorem findallF_eq : ∀ (f : Nat) (s : Str), findallF f s = (segsF f s).filterMap urlOf := by
  intro f
  induction f with
  | zero => intro s; rfl
  | succ f ih =>
    intro s
    match s with
    | [] => rfl
    | c :: rest =>
      cases hm : matchUrlAt (c :: rest) with
      | some n =>
        simp only [findallF, segsF, hm, List.filterMap_cons, urlOf]
        rw [ih]
      | none =>
        simp only [findallF, segsF, hm, List.filterMap_cons, urlOf]
        rw [ih]

theorem findall_eq_segs (s : Str) : findall s = (segs s).filterMap urlOf :=
  findallF_eq _ s

theorem matchUrlAt_head_not_url {c : Char} {rest : Str} (hc : isUrlChar c = false) :
    matchUrlAt (c :: rest) = none := by
  cases hm : matchUrlAt (c :: rest) with
  | none => rfl
  | some n =>
    exfalso
    obtain ⟨pfx, run, hpfx, -, -, htake, hn, -⟩ := matchUrlAt_some hm
    have hch : c = 'h' := by
      rcases hpfx with rfl | rfl
      · have h8 : ("https://".data : Str).length = 8 := rfl
        rw [h8] at hn
        rw [show n = (7 + run.length) + 1 by omega] at htake
        rw [List.take_succ_cons] at htake
        injection htake with h1 _
      · have h7 : ("http://".data : Str).length = 7 := rfl
        rw [h7] at hn
        rw [show n = (6 + run.length) + 1 by omega] at htake
        rw [List.take_succ_cons] at htake
        injection htake with h1 _
    rw [hch] at hc
    simp [isUrlChar, isPySpace] at hc

theorem goodSegs_urlChars {m : Str} (h : IsMatchStr m) : ∀ c ∈ m, isUrlChar c = true := by
  obtain ⟨pfx, run, hpfx, -, hchars, hm⟩ := h
  intro c hc
  rw [hm] at hc
  rcases List.mem_append.mp hc with hp | hr
  · have hx : ∀ c ∈ ("https://".data : Str), isUrlChar c = true := by decide
    have hy : ∀ c ∈ ("http://".data : Str), isUrlChar c = true := by decide
    rcases hpfx with rfl | rfl
    · exact hx c hp
    · exact hy c hp
  · exact hchars c hr

theorem isMatchStr_head {m : Str} (h : IsMatchStr m) : ∃ tl, m = 'h' :: tl := by
  obtain ⟨pfx, run, hpfx, -, -, hm⟩ := h
  rcases hpfx with rfl | rfl
  · exact ⟨"ttps://".data ++ run, by rw [hm]; rfl⟩
  · exact ⟨"ttp://".data ++ run, by rw [hm]; rfl⟩

theorem isMatchStr_ne_nil {m : Str} (h : IsMatchStr m) : m ≠ [] := by
  obtain ⟨tl, rfl⟩ := isMatchStr_head h
  simp

theorem goodSegs_segsF :
    ∀ (f : Nat) (s : Str), s.length < f → GoodSegs (segsF f s) := by
  intro f
  induction f with
  | zero => exact fun s h => absurd h (Nat.not_lt_zero _)
  | succ f ih =>
    intro s h
    match s with
    | [] => trivial
    | c :: rest =>
      cases hm : matchUrlAt (c :: rest) with
      | some n =>
        obtain ⟨hn0, hnle⟩ := matchUrlAt_pos hm
        obtain ⟨pfx, run, hpfx, hrun, hchars, htake, hn, hbound⟩ := matchUrlAt_some hm
        have hdlen : ((c :: rest).drop n).length < f := by
          rw [List.length_drop]
          simp only [List.length_cons] at h ⊢
          omega
        simp only [segsF, hm]
        refine ⟨⟨pfx, run, hpfx, hrun, hchars, htake⟩, ?_, ih _ hdlen⟩
        rcases hbound with hnil | ⟨c2, rest2, hd, hc2⟩
        · rw [hnil]
          cases f with
          | zero => trivial
          | succ f => trivial
        · rw [hd]
          cases f with
          | zero => exact absurd hdlen (by rw [hd]; simp)
          | succ f =>
            have : matchUrlAt (c2 :: rest2) = none := matchUrlAt_head_not_url hc2
            simp only [segsF, this]
            exact hc2
      | none =>
        simp only [segsF, hm]
        refine ⟨?_, ih rest (by simp only [List.length_cons] at h; omega)⟩
        rw [catSegs_orig_segsF f rest (by simp only [List.length_cons] at h; omega)]
        exact hm

theorem goodSegs_segs (s : Str) : GoodSegs (segs s) :=
  goodSegs_segsF _ s (Nat.lt_succ_self _)

/-! ### Characters of citation markers -/

theorem natToDecF_mem : ∀ (f n : Nat), ∀ c ∈ natToDecF f n, c ∈ ("0123456789".data : Str) := by
  intro f
  induction f with
  | zero => intro n c hc; simp [natToDecF] at hc
  | succ f ih =>
    intro n c hc
    simp only [natToDecF] at hc
    by_cases hn : n < 10
    · rw [if_pos hn] at hc
      simp only [List.mem_singleton] at hc
      subst hc
      interval_cases n <;> decide
    · rw [if_neg hn] at hc
      rcases List.mem_append.mp hc with h1 | h2
      · exact ih _ c h1
      · simp only [List.mem_singleton] at h2
        subst h2
        have hk : n % 10 < 10 := Nat.mod_lt _ (by omega)
        generalize n % 10 = k at hk
        interval_cases k <;> decide

theorem natToDec_mem {n : Nat} : ∀ c ∈ natToDec n, c ∈ ("0123456789".data : Str) :=
  natToDecF_mem _ n

theorem marker_eq {j : Nat} : marker j = '[' :: (natToDec j ++ [']']) := rfl

theorem marker_tail_ne_h {j : Nat} : ∀ c ∈ (natToDec j ++ [']'] : Str), c ≠ 'h' := by
  intro c hc
  have hdig : ∀ x ∈ ("0123456789".data : Str), x ≠ 'h' := by decide
  rcases List.mem_append.mp hc with h1 | h2
  · exact hdig c (natToDec_mem c h1)
  · simp only [List.mem_singleton] at h2
    subst h2
    decide

theorem marker_chars_not_https {j : Nat} :
    ∀ c ∈ marker j, c ∉ ("https://".data : Str) := by
  intro c hc
  have hdig : ∀ x ∈ ("0123456789".data : Str), x ∉ ("https://".data : Str) := by decide
  rw [marker_eq] at hc
  rcases List.mem_cons.mp hc with rfl | hc'
  · decide
  · rcases List.mem_append.mp hc' with h1 | h2
    · exact hdig c (natToDec_mem c h1)
    · simp only [List.mem_singleton] at h2
      subst h2
      decide

theorem https_urlChar : ∀ c ∈ ("https://".data : Str), isUrlChar c = true := by
  decide

theorem http_subset_https : ∀ c ∈ ("http://".data : Str), c ∈ ("https://".data : Str) := by
  decide

/-! ### Prefixes of the hybrid text trace back to the original text -/

theorem agree {U done : List Str} :
    ∀ (S : List Seg), GoodSegs S →
      ∀ (pfx : Str) (next : Char),
        (∀ c ∈ pfx, c ∈ ("https://".data : Str)) → isUrlChar next = true →
        PrefixP (pfx ++ [next]) (catSegs (hrender U done) S) →
        ∃ c2 d, catSegs origRender S = pfx ++ c2 :: d ∧ isUrlChar c2 = true := by
  intro S
  induction S with
  | nil =>
    intro _ pfx next _ _ hpre
    have := prefixP_length hpre
    simp [catSegs] at this
  | cons sg S' ih =>
    intro hGS pfx next hchars hnext hpre
    match sg with
    | Seg.gap c =>
      obtain ⟨-, hGS'⟩ := hGS
      cases pfx with
      | nil =>
        obtain ⟨rfl, -⟩ := prefixP_head hpre
        exact ⟨next, catSegs origRender S', rfl, hnext⟩
      | cons p pfx' =>
        have hpre' : PrefixP (p :: (pfx' ++ [next])) (c :: catSegs (hrender U done) S') := hpre
        obtain ⟨rfl, hpre''⟩ := prefixP_head hpre'
        obtain ⟨c2, d, horig, hc2⟩ :=
          ih hGS' pfx' next (fun x hx => hchars x (List.mem_cons_of_mem _ hx)) hnext hpre''
        refine ⟨c2, d, ?_, hc2⟩
        show p :: catSegs origRender S' = (p :: pfx') ++ c2 :: d
        rw [List.cons_append, horig]
    | Seg.url m =>
      obtain ⟨hm, hba, hGS'⟩ := hGS
      by_cases hdone : m ∈ done
      · -- the slot is already a citation marker
        have hrend : hrender U done (Seg.url m) = marker (idxOf m U + 1) := by
          simp [hrender, hdone]
        cases pfx with
        | nil =>
          obtain ⟨tl, htl⟩ := isMatchStr_head hm
          refine ⟨'h', tl ++ catSegs origRender S', ?_, by decide⟩
          show m ++ catSegs origRender S' = [] ++ 'h' :: (tl ++ catSegs origRender S')
          rw [htl]
          rfl
        | cons p pfx' =>
          exfalso
          have hpre' : PrefixP (p :: (pfx' ++ [next]))
              ('[' :: ((natToDec (idxOf m U + 1) ++ [']']) ++ catSegs (hrender U done) S')) := by
            have : catSegs (hrender U done) (Seg.url m :: S')
                = marker (idxOf m U + 1) ++ catSegs (hrender U done) S' := by
              show hrender U done (Seg.url m) ++ _ = _
              rw [hrend]
            rw [this, marker_eq] at hpre
            exact hpre
          obtain ⟨rfl, -⟩ := prefixP_head hpre'
          have hmem := hchars '[' (List.mem_cons_self _ _)
          revert hmem
          decide
      · -- the slot still holds the original URL text
        have hrend : hrender U done (Seg.url m) = m := by
          simp [hrender, hdone]
        have hpre' : PrefixP (pfx ++ [next]) (m ++ catSegs (hrender U done) S') := by
          have : catSegs (hrender U done) (Seg.url m :: S')
              = m ++ catSegs (hrender U done) S' := by
            show hrender U done (Seg.url m) ++ _ = _
            rw [hrend]
          rw [this] at hpre
          exact hpre
        rcases prefixP_cases hpre' with hA | ⟨hB, hrem⟩
        · -- pfx ++ [next] is a prefix of the URL itself
          rcases hA with ⟨w, hw⟩
          refine ⟨next, w ++ catSegs origRender S', ?_, hnext⟩
          show m ++ catSegs origRender S' = pfx ++ next :: (w ++ catSegs origRender S')
          rw [← hw]
          simp
        · -- the URL is a prefix of pfx ++ [next]; the remainder must be empty
          rcases hB with ⟨w, hwm⟩
          by_cases hw0 : w = []
          · subst hw0
            rw [List.append_nil] at hwm
            refine ⟨next, catSegs origRender S', ?_, hnext⟩
            show m ++ catSegs origRender S' = pfx ++ next :: catSegs origRender S'
            rw [hwm]
            simp
          · exfalso
            have hremw : (pfx ++ [next]).drop m.length = w := by
              rw [← hwm]
              exact drop_len_append rfl
            rw [hremw] at hrem
            cases w with
            | nil => exact hw0 rfl
            | cons w0 w' =>
              have hw0mem : w0 ∈ pfx ++ [next] := by
                have : w0 ∈ (pfx ++ [next]).drop m.length := by
                  rw [hremw]
                  exact List.mem_cons_self _ _
                exact List.drop_subset _ _ this
              have hw0url : isUrlChar w0 = true := by
                rcases List.mem_append.mp hw0mem with h1 | h2
                · exact https_urlChar w0 (hchars w0 h1)
                · simp only [List.mem_singleton] at h2
                  subst h2
                  exact hnext
              match S', hba with
              | [], _ =>
                have := prefixP_length hrem
                simp [catSegs] at this
              | Seg.gap c2 :: S'', hba =>
                have hba' : isUrlChar c2 = false := hba
                obtain ⟨rfl, -⟩ := prefixP_head hrem
                rw [hw0url] at hba'
                exact Bool.noConfusion hba'
              | Seg.url _ :: _, hba =>
                exact hba.elim

theorem ng {U done : List Str} {u : Str} (hu : IsMatchStr u) :
    ∀ {c : Char} {S' : List Seg}, GoodSegs (Seg.gap c :: S') →
      ¬ PrefixP u (catSegs (hrender U done) (Seg.gap c :: S')) := by
  intro c S' hGS hpre
  obtain ⟨hmua, hGS'⟩ := hGS
  obtain ⟨pfxu, run, hpfxu, hrun, hchars, hmu⟩ := hu
  cases run with
  | nil => exact hrun rfl
  | cons r0 run' =>
    have hpre2 : PrefixP (pfxu ++ [r0]) (catSegs (hrender U done) (Seg.gap c :: S')) := by
      rcases hpre with ⟨w, hw⟩
      refine ⟨run' ++ w, ?_⟩
      rw [← hw, hmu]
      simp
    have hchars' : ∀ x ∈ pfxu, x ∈ ("https://".data : Str) := by
      rcases hpfxu with rfl | rfl
      · exact fun x hx => hx
      · exact fun x hx => http_subset_https x hx
    have hr0 : isUrlChar r0 = true := hchars r0 (List.mem_cons_self _ _)
    obtain ⟨c2, d, horig, hc2⟩ :=
      agree (Seg.gap c :: S') ⟨hmua, hGS'⟩ pfxu r0 hchars' hr0 hpre2
    have horig' : (c :: catSegs origRender S') = pfxu ++ c2 :: d := horig
    rcases hpfxu with rfl | rfl
    · have hsome : matchUrlAt (c :: catSegs origRender S') ≠ none := by
        rw [horig']
        unfold matchUrlAt
        have hpref : ("https://".data).isPrefixOf ("https://".data ++ c2 :: d) = true :=
          isPrefixOf_true.mpr ⟨c2 :: d, rfl⟩
        rw [if_pos hpref]
        have hdrop : ("https://".data ++ c2 :: d).drop 8 = c2 :: d := drop_len_append rfl
        rw [hdrop]
        rw [List.takeWhile_cons, hc2]
        simp
      exact hsome hmua
    · have hsome : matchUrlAt (c :: catSegs origRender S') ≠ none := by
        rw [horig']
        unfold matchUrlAt
        have hfail : ("https://".data).isPrefixOf ("http://".data ++ c2 :: d) = false := rfl
        rw [hfail]
        have hpref : ("http://".data).isPrefixOf ("http://".data ++ c2 :: d) = true :=
          isPrefixOf_true.mpr ⟨c2 :: d, rfl⟩
        rw [if_neg (by simp), if_pos hpref]
        have hdrop : ("http://".data ++ c2 :: d).drop 7 = c2 :: d := drop_len_append rfl
        rw [hdrop]
        rw [List.takeWhile_cons, hc2]
        simp
      exact hsome hmua

theorem no_match_inside_slot {U done : List Str} {u m : Str} (hu : IsMatchStr u)
    (hmu : m ≠ u) (hsubm : SubSeg u m → u = m)
    {S' : List Seg} (hba : BoundaryAfter S') :
    ∀ Y Z, hrender U done (Seg.url m) = Y ++ Z → Z ≠ [] →
      ¬ PrefixP u (Z ++ catSegs (hrender U done) S') := by
  intro Y Z hYZ hZ hpre
  by_cases hdone : m ∈ done
  · have hrend : hrender U done (Seg.url m) = marker (idxOf m U + 1) := by
      simp [hrender, hdone]
    rw [hrend, marker_eq] at hYZ
    obtain ⟨tl, htl⟩ := isMatchStr_head hu
    cases Z with
    | nil => exact hZ rfl
    | cons z0 Z' =>
      have hz0 : z0 = 'h' := by
        rw [htl] at hpre
        obtain ⟨h1, -⟩ := prefixP_head hpre
        exact h1.symm
      cases Y with
      | nil =>
        rw [List.nil_append] at hYZ
        injection hYZ with h1 _
        rw [hz0] at h1
        exact absurd h1 (by decide)
      | cons y0 Y' =>
        rw [List.cons_append] at hYZ
        injection hYZ with _ htail
        have hz0mem : z0 ∈ (natToDec (idxOf m U + 1) ++ [']'] : Str) := by
          rw [htail]
          exact List.mem_append_right _ (List.mem_cons_self _ _)
        exact marker_tail_ne_h z0 hz0mem hz0
  · have hrend : hrender U done (Seg.url m) = m := by
      simp [hrender, hdone]
    rw [hrend] at hYZ
    rcases prefixP_cases hpre with hA | ⟨hB, hrem⟩
    · rcases hA with ⟨w, hw⟩
      have hss : SubSeg u m := ⟨Y, w, by rw [hYZ, ← hw]; simp⟩
      exact hmu (hsubm hss).symm
    · rcases hB with ⟨w, hwz⟩
      by_cases hw0 : w = []
      · subst hw0
        rw [List.append_nil] at hwz
        have hss : SubSeg u m := ⟨Y, [], by rw [hYZ, hwz]; simp⟩
        exact hmu (hsubm hss).symm
      · have hremw : u.drop Z.length = w := by
          rw [← hwz]
          exact drop_len_append rfl
        rw [hremw] at hrem
        cases w with
        | nil => exact hw0 rfl
        | cons w0 w' =>
          have hw0mem : w0 ∈ u := by
            rw [← hwz]
            exact List.mem_append_right _ (List.mem_cons_self _ _)
          have hw0url : isUrlChar w0 = true := goodSegs_urlChars hu w0 hw0mem
          match S', hba with
          | [], _ =>
            have := prefixP_length hrem
            simp [catSegs] at this
          | Seg.gap c2 :: S'', hba =>
            have hba' : isUrlChar c2 = false := hba
            obtain ⟨rfl, -⟩ := prefixP_head hrem
            rw [hw0url] at hba'
            exact Bool.noConfusion hba'
          | Seg.url _ :: _, hba => exact hba.elim

theorem replace_hybrid {U done : List Str} {u r : Str} (hu : IsMatchStr u) (hdone : u ∉ done) :
    ∀ (S : List Seg), GoodSegs S →
      (∀ m, Seg.url m ∈ S → SubSeg u m → u = m) →
      replaceAll u r (catSegs (hrender U done) S) =
        catSegs (flipRender u r (hrender U done)) S := by
  intro S
  induction S with
  | nil => intro _ _; rfl
  | cons sg S' ih =>
    intro hGS hsub
    have hsub' : ∀ m, Seg.url m ∈ S' → SubSeg u m → u = m :=
      fun m hm => hsub m (List.mem_cons_of_mem _ hm)
    match sg, hGS with
    | Seg.gap c, ⟨hmua, hGS'⟩ =>
      have hnp : ¬ PrefixP u (catSegs (hrender U done) (Seg.gap c :: S')) :=
        ng hu ⟨hmua, hGS'⟩
      have hcond : (!u.isEmpty && u.isPrefixOf (c :: catSegs (hrender U done) S')) = false := by
        cases hp : u.isPrefixOf (c :: catSegs (hrender U done) S') with
        | true => exact absurd (isPrefixOf_true.mp hp) hnp
        | false => simp
      show replaceAll u r (c :: catSegs (hrender U done) S')
          = c :: catSegs (flipRender u r (hrender U done)) S'
      rw [replaceAll_cons_neg hcond, ih hGS' hsub']
    | Seg.url m, ⟨hm, hba, hGS'⟩ =>
      by_cases hmu : m = u
      · subst hmu
        have hrend : hrender U done (Seg.url m) = m := by
          simp [hrender, hdone]
        have hshape : catSegs (hrender U done) (Seg.url m :: S')
            = m ++ catSegs (hrender U done) S' := by
          show hrender U done (Seg.url m) ++ _ = _
          rw [hrend]
        obtain ⟨tl, htl⟩ := isMatchStr_head hm
        have hUT : m ++ catSegs (hrender U done) S'
            = 'h' :: (tl ++ catSegs (hrender U done) S') := by
          rw [htl]
          rfl
        have hcond : (!m.isEmpty && m.isPrefixOf ('h' :: (tl ++ catSegs (hrender U done) S'))) = true := by
          rw [← hUT]
          simp only [Bool.and_eq_true]
          refine ⟨?_, isPrefixOf_true.mpr ⟨_, rfl⟩⟩
          rw [htl]
          rfl
        have hdropm : ('h' :: (tl ++ catSegs (hrender U done) S')).drop m.length
            = catSegs (hrender U done) S' := by
          rw [← hUT]
          exact drop_len_append rfl
        have hflip : flipRender m r (hrender U done) (Seg.url m) = r := by
          simp [flipRender]
        show replaceAll m r (catSegs (hrender U done) (Seg.url m :: S'))
            = catSegs (flipRender m r (hrender U done)) (Seg.url m :: S')
        rw [hshape, hUT, replaceAll_cons_pos hcond, hdropm, ih hGS' hsub']
        show r ++ _ = flipRender m r (hrender U done) (Seg.url m)
            ++ catSegs (flipRender m r (hrender U done)) S'
        rw [hflip]
      · have hflip : flipRender u r (hrender U done) (Seg.url m)
            = hrender U done (Seg.url m) := by
          simp [flipRender, hmu]
        have hwalk := @no_match_inside_slot U done u m hu hmu
          (hsub m (List.mem_cons_self _ _)) S' hba
        show replaceAll u r (hrender U done (Seg.url m) ++ catSegs (hrender U done) S')
            = catSegs (flipRender u r (hrender U done)) (Seg.url m :: S')
        rw [replaceAll_walk _ _ hwalk, ih hGS' hsub']
        show hrender U done (Seg.url m) ++ _
            = flipRender u r (hrender U done) (Seg.url m)
            ++ catSegs (flipRender u r (hrender U done)) S'
        rw [hflip]

/-! ### Folding the whole substitution loop -/

theorem catSegs_congr {f g : Seg → Str} (h : ∀ sgg, f sgg = g sgg) :
    ∀ S, catSegs f S = catSegs g S := by
  intro S
  induction S with
  | nil => rfl
  | cons sg S ih =>
    show f sg ++ _ = g sg ++ _
    rw [h sg, ih]

theorem catSegs_congr_mem {f g : Seg → Str} :
    ∀ S, (∀ sgg ∈ S, f sgg = g sgg) → catSegs f S = catSegs g S := by
  intro S
  induction S with
  | nil => intro _; rfl
  | cons sg S ih =>
    intro h
    show f sg ++ _ = g sg ++ _
    rw [h sg (List.mem_cons_self _ _), ih (fun x hx => h x (List.mem_cons_of_mem _ hx))]

theorem pyDedup_aux_mem :
    ∀ (l acc : List Str) (x : Str),
      x ∈ l.foldl (fun acc u => if u ∈ acc then acc else acc ++ [u]) acc ↔ x ∈ acc ∨ x ∈ l := by
  intro l
  induction l with
  | nil => intro acc x; simp
  | cons a l ih =>
    intro acc x
    simp only [List.foldl_cons]
    by_cases ha : a ∈ acc
    · rw [if_pos ha, ih]
      constructor
      · rintro (h | h)
        · exact Or.inl h
        · exact Or.inr (List.mem_cons_of_mem _ h)
      · rintro (h | h)
        · exact Or.inl h
        · rcases List.mem_cons.mp h with rfl | h'
          · exact Or.inl ha
          · exact Or.inr h'
    · rw [if_neg ha, ih]
      simp only [List.mem_append, List.mem_singleton, List.mem_cons]
      tauto

theorem pyDedup_mem {l : List Str} {x : Str} : x ∈ pyDedup l ↔ x ∈ l := by
  unfold pyDedup
  rw [pyDedup_aux_mem]
  simp

theorem pyDedup_aux_nodup :
    ∀ (l acc : List Str), acc.Nodup →
      (l.foldl (fun acc u => if u ∈ acc then acc else acc ++ [u]) acc).Nodup := by
  intro l
  induction l with
  | nil => intro acc h; exact h
  | cons a l ih =>
    intro acc h
    simp only [List.foldl_cons]
    by_cases ha : a ∈ acc
    · rw [if_pos ha]
      exact ih _ h
    · rw [if_neg ha]
      refine ih _ (List.nodup_append.mpr ⟨h, List.nodup_singleton _, ?_⟩)
      intro x hx hxa
      simp only [List.mem_singleton] at hxa
      subst hxa
      exact ha hx

theorem pyDedup_nodup (l : List Str) : (pyDedup l).Nodup :=
  pyDedup_aux_nodup l [] List.nodup_nil

theorem idxOf_append_cons {u : Str} :
    ∀ (done rest : List Str), (done ++ u :: rest).Nodup →
      idxOf u (done ++ u :: rest) = done.length := by
  intro done
  induction done with
  | nil => intro rest _; simp [idxOf]
  | cons d done' ihd =>
    intro rest hnd
    have hdu : d ≠ u := by
      intro h
      subst h
      have := (List.nodup_cons.mp hnd).1
      exact this (List.mem_append_right _ (List.mem_cons_self _ _))
    rw [List.cons_append]
    show (if d = u then 0 else idxOf u (done' ++ u :: rest) + 1) = (d :: done').length
    rw [if_neg hdu, ihd rest (List.nodup_cons.mp hnd).2]
    rfl

theorem flip_hrender {U done : List Str} {u : Str} :
    ∀ sgg, flipRender u (marker (idxOf u U + 1)) (hrender U done) sgg
      = hrender U (done ++ [u]) sgg := by
  intro sgg
  match sgg with
  | Seg.gap c => rfl
  | Seg.url m =>
    by_cases hmu : m = u
    · subst hmu
      have h1 : flipRender m (marker (idxOf m U + 1)) (hrender U done) (Seg.url m)
          = marker (idxOf m U + 1) := by
        simp [flipRender]
      have h2 : hrender U (done ++ [m]) (Seg.url m) = marker (idxOf m U + 1) := by
        simp [hrender]
      rw [h1, h2]
    · have h1 : flipRender u (marker (idxOf u U + 1)) (hrender U done) (Seg.url m)
          = hrender U done (Seg.url m) := by
        simp [flipRender, hmu]
      rw [h1]
      show hrender U done (Seg.url m) = hrender U (done ++ [u]) (Seg.url m)
      have hiff : (m ∈ done ++ [u]) ↔ (m ∈ done) := by simp [hmu]
      by_cases hdone : m ∈ done
      · simp [hrender, hdone, hiff.mpr hdone]
      · simp [hrender, hdone, hmu]

theorem goodSegs_mem_isMatch :
    ∀ {S : List Seg}, GoodSegs S → ∀ {m : Str}, Seg.url m ∈ S → IsMatchStr m := by
  intro S
  induction S with
  | nil => intro _ m hm; simp at hm
  | cons sg S ih =>
    intro hGS m hm
    rcases List.mem_cons.mp hm with heq | htail
    · cases heq
      obtain ⟨h1, -, -⟩ := hGS
      exact h1
    · match sg, hGS with
      | Seg.gap c, ⟨_, hGS'⟩ => exact ih hGS' htail
      | Seg.url m', ⟨_, _, hGS'⟩ => exact ih hGS' htail

theorem url_mem_findall {t m : Str} (h : Seg.url m ∈ segs t) : m ∈ findall t := by
  rw [findall_eq_segs]
  exact List.mem_filterMap.mpr ⟨Seg.url m, h, rfl⟩

theorem fold_hybrid {U : List Str} (hU : U.Nodup) {S : List Seg} (hGS : GoodSegs S)
    (hmatch : ∀ x ∈ U, IsMatchStr x)
    (hsubAll : ∀ x ∈ U, ∀ m, Seg.url m ∈ S → SubSeg x m → x = m) :
    ∀ (rest done : List Str), done ++ rest = U →
      (pyEnumerate (done.length + 1) rest).foldl
        (fun txt p => replaceAll p.2 (marker p.1) txt)
        (catSegs (hrender U done) S)
      = catSegs (hrender U U) S := by
  intro rest
  induction rest with
  | nil =>
    intro done hdone
    simp only [pyEnumerate, List.foldl_nil]
    rw [show done = U from by rw [← hdone]; simp]
  | cons u rest' ih =>
    intro done hdone
    simp only [pyEnumerate, List.foldl_cons]
    have hmem : u ∈ U := by
      rw [← hdone]
      exact List.mem_append_right _ (List.mem_cons_self _ _)
    have hnd : (done ++ u :: rest').Nodup := by
      rw [hdone]
      exact hU
    have hnotdone : u ∉ done := by
      intro hin
      exact List.disjoint_of_nodup_append hnd hin (List.mem_cons_self _ _)
    have hstep := @replace_hybrid U done u (marker (done.length + 1))
      (hmatch u hmem) hnotdone S hGS (hsubAll u hmem)
    have hidx : idxOf u U = done.length := by
      rw [← hdone]
      exact idxOf_append_cons done rest' hnd
    have hflipfun : ∀ sgg, flipRender u (marker (done.length + 1)) (hrender U done) sgg
        = hrender U (done ++ [u]) sgg := by
      rw [← hidx]
      exact flip_hrender
    rw [hstep, catSegs_congr hflipfun S]
    have := ih (done ++ [u]) (by rw [← hdone]; simp)
    simpa using this

theorem pyEnumerate_fst :
    ∀ (l : List Str) (n : Nat), (pyEnumerate n l).map Prod.fst = List.range' n l.length := by
  intro l
  induction l with
  | nil => intro n; rfl
  | cons a l ih =>
    intro n
    simp only [pyEnumerate, List.map_cons, List.length_cons, List.range'_succ]
    rw [ih]

theorem pyEnumerate_snd :
    ∀ (l : List Str) (n : Nat), (pyEnumerate n l).map Prod.snd = l := by
  intro l
  induction l with
  | nil => intro n; rfl
  | cons a l ih =>
    intro n
    simp only [pyEnumerate, List.map_cons]
    rw [ih]

theorem citeReplace_hybrid (t : Str)
    (H : ∀ x ∈ extractUrls t, ∀ v ∈ extractUrls t, x ≠ v → ¬ SubSeg x v) :
    citeReplace t = catSegs (citeRender (extractUrls t)) (segs t) := by
  have hnd : (extractUrls t).Nodup := pyDedup_nodup _
  have hGS : GoodSegs (segs t) := goodSegs_segs t
  have hmatch : ∀ x ∈ extractUrls t, IsMatchStr x := by
    intro x hx
    have hfd : x ∈ findall t := pyDedup_mem.mp hx
    rw [findall_eq_segs] at hfd
    obtain ⟨sg, hsg, hsome⟩ := List.mem_filterMap.mp hfd
    match sg, hsome with
    | Seg.url m, hsome =>
      have hmx : m = x := by
        simpa [urlOf] using hsome
      subst hmx
      exact goodSegs_mem_isMatch hGS hsg
    | Seg.gap _, hsome => simp [urlOf] at hsome
  have hsubAll : ∀ x ∈ extractUrls t, ∀ m, Seg.url m ∈ segs t → SubSeg x m → x = m := by
    intro x hx m hm hss
    by_contra hne
    have hmU : m ∈ extractUrls t := pyDedup_mem.mpr (url_mem_findall hm)
    exact H x hx m hmU hne hss
  have hinit : catSegs (hrender (extractUrls t) []) (segs t) = t := by
    have hpt : ∀ sgg, hrender (extractUrls t) [] sgg = origRender sgg := by
      intro sgg
      match sgg with
      | Seg.gap c => rfl
      | Seg.url m => simp [hrender, origRender]
    rw [catSegs_congr hpt (segs t), segs_orig]
  have hfold := fold_hybrid hnd hGS hmatch hsubAll (extractUrls t) [] rfl
  have hfinal : catSegs (hrender (extractUrls t) (extractUrls t)) (segs t)
      = catSegs (citeRender (extractUrls t)) (segs t) := by
    refine catSegs_congr_mem (segs t) ?_
    intro sgg hsg
    match sgg with
    | Seg.gap c => rfl
    | Seg.url m =>
      have hmU : m ∈ extractUrls t := pyDedup_mem.mpr (url_mem_findall hsg)
      simp [hrender, citeRender, hmU]
  show (pyEnumerate 1 (extractUrls t)).foldl (fun txt p => replaceAll p.2 (marker p.1) txt) t
      = catSegs (citeRender (extractUrls t)) (segs t)
  calc
    (pyEnumerate 1 (extractUrls t)).foldl (fun txt p => replaceAll p.2 (marker p.1) txt) t
        = (pyEnumerate 1 (extractUrls t)).foldl (fun txt p => replaceAll p.2 (marker p.1) txt)
            (catSegs (hrender (extractUrls t) []) (segs t)) := by rw [hinit]
    _ = catSegs (hrender (extractUrls t) (extractUrls t)) (segs t) := by simpa using hfold
    _ = catSegs (citeRender (extractUrls t)) (segs t) := hfinal

/-! ### Claim C1 -/

/-- C1 (counterexample): on the input `"http://a.com http://a.com/x"`, where the
first-extracted URL is a prefix of the second, the sequential substitution loop
of `clean_markdown` does not replace every occurrence of each URL by its own
marker: the pass yields `"[1] [1]/x"` while marker-per-match rendering of the
scan is `"[1] [2]"`. -/
theorem clean_markdown_citation_substring_cex :
    citeReplace (cleanNorm cexRaw)
      ≠ catSegs (citeRender (extractUrls (cleanNorm cexRaw))) (segs (cleanNorm cexRaw)) := by
  decide

/-- C1 (amended): for every input text, each distinct URL-shaped substring is
assigned the next sequential id starting at 1 in order of first appearance
(ids are exactly `1..N`, paired with the distinct URLs in extraction order);
and provided no extracted URL is a substring of another extracted URL, the
substitution pass replaces every URL occurrence by the bracketed marker of its
id: the resulting text is the segment decomposition of the input with every
maximal URL match rendered as its marker and all other characters unchanged. -/
theorem clean_markdown_citation_ids_and_replacement (raw t : Str) (U : List Str)
    (ht : t = cleanNorm raw) (hU : U = extractUrls t)
    (H : ∀ x ∈ U, ∀ v ∈ U, x ≠ v → subSegB x v = false) :
    (citeTable t).map Prod.fst = List.range' 1 U.length ∧
    (citeTable t).map Prod.snd = U ∧
    citeReplace t = catSegs (citeRender U) (segs t) := by
  subst hU
  subst ht
  refine ⟨pyEnumerate_fst _ 1, pyEnumerate_snd _ 1, ?_⟩
  refine citeReplace_hybrid _ ?_
  intro x hx v hv hne hss
  have hb := subSegB_of_subSeg hss
  rw [H x hx v hv hne] at hb
  exact Bool.noConfusion hb

/-- C1 (witness): the amended theorem applied to a concrete document whose two
distinct URLs are not substrings of one another. -/
theorem clean_markdown_citation_ids_and_replacement_witness :
    citeReplace (cleanNorm rawC1)
      = catSegs (citeRender (extractUrls (cleanNorm rawC1))) (segs (cleanNorm rawC1)) :=
  (clean_markdown_citation_ids_and_replacement rawC1 (cleanNorm rawC1)
    (extractUrls (cleanNorm rawC1)) rfl rfl (by decide)).2.2

/-! ### Dictionary model lemmas -/

theorem dictGet_map_update :
    ∀ (d : List (Str × Str)) (k : Str) (v : Str), k ∈ dictKeys d →
      dictGet (d.map (fun p => if p.1 = k then (k, v) else p)) k = some v := by
  intro d
  induction d with
  | nil => intro k v hk; simp [dictKeys] at hk
  | cons p d ih =>
    intro k v hk
    obtain ⟨k0, v0⟩ := p
    simp only [List.map_cons]
    by_cases hk0 : k0 = k
    · rw [if_pos hk0]
      show dictGet ((k, v) :: _) k = some v
      simp [dictGet]
    · rw [if_neg hk0]
      have hk2 : k ∈ dictKeys d := by
        rcases List.mem_cons.mp hk with h | h
        · exact absurd h.symm hk0
        · exact h
      show dictGet ((k0, v0) :: _) k = some v
      simp only [dictGet]
      rw [if_neg hk0]
      exact ih k v hk2

theorem dictGet_none_of_not_mem :
    ∀ (d : List (Str × Str)) (k : Str), k ∉ dictKeys d → dictGet d k = none := by
  intro d
  induction d with
  | nil => intro k _; rfl
  | cons p d ih =>
    intro k hk
    obtain ⟨k0, v0⟩ := p
    have hk0 : k0 ≠ k := by
      intro h
      exact hk (by rw [h]; exact List.mem_cons_self _ _)
    simp only [dictGet]
    rw [if_neg hk0]
    exact ih k (fun h => hk (List.mem_cons_of_mem _ h))

theorem dictGet_append_single :
    ∀ (d : List (Str × Str)) (k : Str) (v : Str), k ∉ dictKeys d →
      dictGet (d ++ [(k, v)]) k = some v := by
  intro d
  induction d with
  | nil => intro k v _; simp [dictGet]
  | cons p d ih =>
    intro k v hk
    obtain ⟨k0, v0⟩ := p
    have hk0 : k0 ≠ k := by
      intro h
      exact hk (by rw [h]; exact List.mem_cons_self _ _)
    simp only [List.cons_append, dictGet]
    rw [if_neg hk0]
    exact ih k v (fun h => hk (List.mem_cons_of_mem _ h))

theorem dictGet_set_self (d : List (Str × Str)) (k : Str) (v : Str) :
    dictGet (dictSet d k v) k = some v := by
  unfold dictSet
  by_cases hk : k ∈ dictKeys d
  · rw [if_pos hk]
    exact dictGet_map_update d k v hk
  · rw [if_neg hk]
    exact dictGet_append_single d k v hk

theorem dictGet_map_update_ne :
    ∀ (d : List (Str × Str)) (k k' : Str) (v : Str), k' ≠ k →
      dictGet (d.map (fun p => if p.1 = k then (k, v) else p)) k' = dictGet d k' := by
  intro d
  induction d with
  | nil => intro k k' v _; rfl
  | cons p d ih =>
    intro k k' v h
    obtain ⟨k0, v0⟩ := p
    simp only [List.map_cons]
    by_cases hk0 : k0 = k
    · rw [if_pos hk0]
      show dictGet ((k, v) :: _) k' = dictGet ((k0, v0) :: _) k'
      simp only [dictGet]
      rw [if_neg (fun hh : k = k' => h hh.symm),
        if_neg (fun hh : k0 = k' => h ((hk0.symm.trans hh).symm))]
      exact ih k k' v h
    · rw [if_neg hk0]
      show dictGet ((k0, v0) :: _) k' = dictGet ((k0, v0) :: _) k'
      simp only [dictGet]
      by_cases hkk : k0 = k'
      · rw [if_pos hkk, if_pos hkk]
      · rw [if_neg hkk, if_neg hkk]
        exact ih k k' v h

theorem dictGet_append_single_ne :
    ∀ (d : List (Str × Str)) (k k' : Str) (v : Str), k' ≠ k →
      dictGet (d ++ [(k, v)]) k' = dictGet d k' := by
  intro d
  induction d with
  | nil =>
    intro k k' v h
    show (if k = k' then some v else dictGet [] k') = none
    rw [if_neg (fun hh => h hh.symm)]
    rfl
  | cons p d ih =>
    intro k k' v h
    obtain ⟨k0, v0⟩ := p
    simp only [List.cons_append, dictGet]
    by_cases hkk : k0 = k'
    · rw [if_pos hkk, if_pos hkk]
    · rw [if_neg hkk, if_neg hkk]
      exact ih k k' v h

theorem dictGet_set_ne (d : List (Str × Str)) (k k' : Str) (v : Str) (h : k' ≠ k) :
    dictGet (dictSet d k v) k' = dictGet d k' := by
  unfold dictSet
  by_cases hk : k ∈ dictKeys d
  · rw [if_pos hk]
    exact dictGet_map_update_ne d k k' v h
  · rw [if_neg hk]
    exact dictGet_append_single_ne d k k' v h

theorem dictKeys_set (d : List (Str × Str)) (k k' : Str) (v : Str)
    (h : k' ∈ dictKeys (dictSet d k v)) : k' ∈ dictKeys d ∨ k' = k := by
  unfold dictSet at h
  by_cases hk : k ∈ dictKeys d
  · rw [if_pos hk] at h
    unfold dictKeys at h ⊢
    rw [List.map_map] at h
    obtain ⟨p, hp, hval⟩ := List.mem_map.mp h
    by_cases hpk : p.1 = k
    · right
      simp only [Function.comp, if_pos hpk] at hval
      exact hval.symm
    · left
      simp only [Function.comp, if_neg hpk] at hval
      exact List.mem_map.mpr ⟨p, hp, hval⟩
  · rw [if_neg hk] at h
    unfold dictKeys at h ⊢
    rw [List.map_append] at h
    rcases List.mem_append.mp h with h1 | h2
    · exact Or.inl h1
    · simp at h2
      exact Or.inr h2

/-! ### Crawl fold invariants -/

theorem crawl_fold_get {ε : Type} (fetch : Str → Except ε Page) {v : Str} {p : Page}
    (hok : fetch v = Except.ok p) :
    ∀ (links : List Str) (acc : List (Str × Str)),
      (dictGet acc v = some p.markdown ∨ v ∈ links) →
      dictGet (links.foldl (fun crawled_data url =>
        match fetch url with
        | Except.error _ => crawled_data
        | Except.ok result => dictSet crawled_data url result.markdown) acc) v
        = some p.markdown := by
  intro links
  induction links with
  | nil =>
    intro acc h
    rcases h with h | h
    · exact h
    · simp at h
  | cons u ls ih =>
    intro acc h
    simp only [List.foldl_cons]
    cases hf : fetch u with
    | error e =>
      apply ih
      rcases h with h | h
      · exact Or.inl h
      · rcases List.mem_cons.mp h with rfl | h'
        · rw [hok] at hf
          exact absurd hf (by simp)
        · exact Or.inr h'
    | ok result =>
      apply ih
      rcases h with h | h
      · by_cases huv : u = v
        · subst huv
          rw [hok] at hf
          injection hf with hr
          subst hr
          exact Or.inl (dictGet_set_self _ _ _)
        · exact Or.inl (by rw [dictGet_set_ne _ _ _ _ (fun hh => huv hh.symm)]; exact h)
      · rcases List.mem_cons.mp h with rfl | h'
        · rw [hok] at hf
          injection hf with hr
          subst hr
          exact Or.inl (dictGet_set_self _ _ _)
        · exact Or.inr h'

theorem crawl_fold_keys {ε : Type} (fetch : Str → Except ε Page) :
    ∀ (links : List Str) (acc : List (Str × Str)) (k : Str),
      k ∈ dictKeys (links.foldl (fun crawled_data url =>
        match fetch url with
        | Except.error _ => crawled_data
        | Except.ok result => dictSet crawled_data url result.markdown) acc) →
      k ∈ dictKeys acc ∨ k ∈ links := by
  intro links
  induction links with
  | nil => intro acc k h; exact Or.inl h
  | cons u ls ih =>
    intro acc k h
    simp only [List.foldl_cons] at h
    cases hf : fetch u with
    | error e =>
      rw [hf] at h
      rcases ih _ k h with h1 | h1
      · exact Or.inl h1
      · exact Or.inr (List.mem_cons_of_mem _ h1)
    | ok result =>
      rw [hf] at h
      rcases ih _ k h with h1 | h1
      · rcases dictKeys_set _ _ _ _ h1 with h2 | h2
        · exact Or.inl h2
        · exact Or.inr (by rw [h2]; exact List.mem_cons_self _ _)
      · exact Or.inr (List.mem_cons_of_mem _ h1)

theorem crawl_fold_ok {ε : Type} (fetch : Str → Except ε Page) :
    ∀ (links : List Str) (acc : List (Str × Str)),
      (∀ k ∈ dictKeys acc, ∃ p : Page, fetch k = Except.ok p ∧ dictGet acc k = some p.markdown) →
      ∀ k ∈ dictKeys (links.foldl (fun crawled_data url =>
        match fetch url with
        | Except.error _ => crawled_data
        | Except.ok result => dictSet crawled_data url result.markdown) acc),
        ∃ p : Page, fetch k = Except.ok p ∧
          dictGet (links.foldl (fun crawled_data url =>
            match fetch url with
            | Except.error _ => crawled_data
            | Except.ok result => dictSet crawled_data url result.markdown) acc) k
          = some p.markdown := by
  intro links
  induction links with
  | nil => intro acc hacc k hk; exact hacc k hk
  | cons u ls ih =>
    intro acc hacc k hk
    simp only [List.foldl_cons] at hk ⊢
    cases hf : fetch u with
    | error e =>
      rw [hf] at hk
      exact ih _ hacc k hk
    | ok result =>
      rw [hf] at hk
      refine ih _ ?_ k hk
      intro k' hk'
      by_cases hku : k' = u
      · subst hku
        exact ⟨result, hf, dictGet_set_self _ _ _⟩
      · rcases dictKeys_set _ _ _ _ hk' with h2 | h2
        · obtain ⟨p, hp1, hp2⟩ := hacc k' h2
          exact ⟨p, hp1, by rw [dictGet_set_ne _ _ _ _ hku]; exact hp2⟩
        · exact absurd h2 hku

theorem pyDedup_aux_eq :
    ∀ (l acc : List Str), (∀ x ∈ l, x ∉ acc) → l.Nodup →
      l.foldl (fun acc u => if u ∈ acc then acc else acc ++ [u]) acc = acc ++ l := by
  intro l
  induction l with
  | nil => intro acc _ _; simp
  | cons a ls ih =>
    intro acc hdisj hnd
    simp only [List.foldl_cons]
    rw [if_neg (hdisj a (List.mem_cons_self _ _))]
    rw [ih (acc ++ [a]) ?_ (List.nodup_cons.mp hnd).2]
    · simp
    · intro x hx hmem
      rcases List.mem_append.mp hmem with h1 | h2
      · exact hdisj x (List.mem_cons_of_mem _ hx) h1
      · simp only [List.mem_singleton] at h2
        subst h2
        exact (List.nodup_cons.mp hnd).1 hx

theorem pyDedup_eq_self {l : List Str} (h : l.Nodup) : pyDedup l = l := by
  unfold pyDedup
  rw [pyDedup_aux_eq l [] (by simp) h]
  simp

/-! ### Claim C2 -/

/-- C2: for every seed list and per-URL fetch outcome assignment, a URL whose
fetch succeeds is present in the crawl result with its fetched markdown, no
matter how the fetches of the other seeds fail: one failing fetch never removes
a successfully fetched URL.  The crawl itself is a total function — the
exception of a task is a value of the `Except` outcome (the model of
`asyncio.gather(..., return_exceptions=True)`), never a fault of the crawl. -/
theorem crawl_partial_failure_isolation {ε : Type} (fetch : Str → Except ε Page)
    (links : List Str) (v : Str) (p : Page)
    (hv : v ∈ links) (hok : fetch v = Except.ok p) :
    dictGet (crawl_company_links fetch links) v = some p.markdown :=
  crawl_fold_get fetch hok links [] (Or.inr hv)

/-- C2 (witness): with a fetch assignment that fails on `badUrl`, the sibling
seed `goodUrl` keeps its entry. -/
theorem crawl_partial_failure_isolation_witness :
    dictGet (crawl_company_links fetchW [goodUrl, badUrl]) goodUrl
      = some ("Good page text.".data) :=
  crawl_partial_failure_isolation fetchW [goodUrl, badUrl] goodUrl
    ⟨"Good page text.".data⟩ (by decide) rfl

/-! ### Claim C4 -/

/-- C4 (counterexample): a fetch that succeeds with empty extracted text is kept
in the crawl result, mapped to the empty string — the code only skips
exceptions and never filters empty `result.markdown`, so the claim that such
URLs are absent from the mapping is false. -/
theorem crawl_empty_text_retained_cex :
    goodUrl ∈ dictKeys (crawl_company_links fetchE [goodUrl]) ∧
    dictGet (crawl_company_links fetchE [goodUrl]) goodUrl = some [] := by
  constructor
  · decide
  · decide

/-- C4 (amended): every key of the crawl result is a URL whose fetch succeeded,
and it is mapped to exactly the markdown of that successful fetch; URLs whose
fetch raised are absent.  A successful fetch with empty extracted text is
retained (mapped to the empty string), not dropped. -/
theorem crawl_keys_fetched_successfully {ε : Type} (fetch : Str → Except ε Page)
    (links : List Str) (k : Str)
    (hk : k ∈ dictKeys (crawl_company_links fetch links)) :
    ∃ p : Page, fetch k = Except.ok p ∧
      dictGet (crawl_company_links fetch links) k = some p.markdown :=
  crawl_fold_ok fetch links [] (by intro k' hk'; simp [dictKeys] at hk') k hk

/-- C4 (witness): the amended theorem at a concrete crawl. -/
theorem crawl_keys_fetched_successfully_witness :
    ∃ p : Page, fetchW goodUrl = Except.ok p ∧
      dictGet (crawl_company_links fetchW [goodUrl, badUrl]) goodUrl = some p.markdown :=
  crawl_keys_fetched_successfully fetchW [goodUrl, badUrl] goodUrl (by decide)

/-! ### Claim C5 -/

/-- C5 (counterexample): with the seed list `[goodUrl, goodUrl]` the crawl
creates two fetch tasks but only one URL is distinct, so the number of fetch
attempts exceeds the number of distinct URLs: the crawl has no visited set and
fetches a duplicated seed twice. -/
theorem crawl_duplicate_seeds_cex :
    (crawlFetchLog [goodUrl, goodUrl]).length = 2 ∧
    (pyDedup [goodUrl, goodUrl]).length = 1 ∧
    (crawlFetchLog [goodUrl, goodUrl]).length ≠ (pyDedup [goodUrl, goodUrl]).length := by
  refine ⟨by decide, by decide, by decide⟩

/-- C5 (amended): the crawl performs exactly one fetch attempt per element of
the seed list (duplicates are re-fetched); the number of attempts equals the
number of distinct URLs exactly when the seed list is duplicate-free. -/
theorem crawl_fetch_attempts_per_seed (links : List Str) :
    (crawlFetchLog links).length = links.length ∧
    (links.Nodup → (crawlFetchLog links).length = (pyDedup links).length) := by
  constructor
  · simp [crawlFetchLog]
  · intro hnd
    rw [pyDedup_eq_self hnd]
    simp [crawlFetchLog]

/-- C5 (witness): the amended theorem at a duplicate-free seed list. -/
theorem crawl_fetch_attempts_per_seed_witness :
    (crawlFetchLog [goodUrl, badUrl]).length = (pyDedup [goodUrl, badUrl]).length :=
  (crawl_fetch_attempts_per_seed [goodUrl, badUrl]).2 (by decide)

/-! ### Claim C10 -/

/-- C10: every key of the crawl result mapping is an element of the input seed
list — the flat crawl stores text only under the seed URL itself, so a
discovered sub-link never appears as a separate key. -/
theorem crawl_keys_subset_of_seeds {ε : Type} (fetch : Str → Except ε Page)
    (links : List Str) (k : Str)
    (hk : k ∈ dictKeys (crawl_company_links fetch links)) : k ∈ links := by
  rcases crawl_fold_keys fetch links [] k hk with h | h
  · simp [dictKeys] at h
  · exact h

/-- C10 (witness): a concrete key of a concrete crawl is one of its seeds. -/
theorem crawl_keys_subset_of_seeds_witness : goodUrl ∈ [goodUrl, badUrl] :=
  crawl_keys_subset_of_seeds fetchW [goodUrl, badUrl] goodUrl (by decide)

/-! ### Claim C3 -/

/-- C3: for every scoring function and input text, once the citation pass has
produced the working text, `clean_markdown` computes the threshold as half the
maximum score and keeps exactly the sentences whose score is at least the
threshold, in original order, joined with single spaces; a sentence whose score
equals the threshold is retained (the comparison is inclusive); and with zero
sentences the filtering step is skipped entirely, leaving the text unchanged. -/
theorem clean_markdown_threshold_filtering (score : Scorer) (raw t : Str)
    (ss : List Str) (sc : List ℚ) (thr : ℚ)
    (ht : t = citeReplace (cleanNorm raw)) (hss : ss = sentencesOf t)
    (hsc : sc = score (ss.map pyWords) (pyWords t)) (hthr : thr = pyMax sc / 2) :
    (ss ≠ [] → distillBody score t
        = joinSp (((ss.zip sc).filter (fun p => decide (thr ≤ p.2))).map Prod.fst)) ∧
    (ss = [] → distillBody score t = t) ∧
    (∀ s q, (s, q) ∈ ss.zip sc → q = thr →
      s ∈ (((ss.zip sc).filter (fun p => decide (thr ≤ p.2))).map Prod.fst)) := by
  subst hthr
  subst hsc
  subst hss
  subst ht
  refine ⟨?_, ?_, ?_⟩
  · intro hne
    unfold distillBody
    have hcond : (sentencesOf (citeReplace (cleanNorm raw))).isEmpty = false := by
      cases hP : sentencesOf (citeReplace (cleanNorm raw)) with
      | nil => exact absurd hP hne
      | cons a l => rfl
    simp only [hcond, Bool.false_eq_true, if_false]
  · intro he
    unfold distillBody
    rw [he]
    rfl
  · intro s q hmem hq
    refine List.mem_map.mpr ⟨(s, q), List.mem_filter.mpr ⟨hmem, ?_⟩, rfl⟩
    rw [hq]
    simp

/-- C3 (witness): with fixed scores `[1, 4]` on a two-sentence document, the
threshold is `2` and only the second sentence survives. -/
theorem clean_markdown_threshold_filtering_witness :
    distillBody scoreW (citeReplace (cleanNorm rawTwoSent)) = "Gamma delta.".data := by
  have h := clean_markdown_threshold_filtering scoreW rawTwoSent
    (citeReplace (cleanNorm rawTwoSent))
    (sentencesOf (citeReplace (cleanNorm rawTwoSent)))
    (scoreW ((sentencesOf (citeReplace (cleanNorm rawTwoSent))).map pyWords)
      (pyWords (citeReplace (cleanNorm rawTwoSent))))
    (pyMax (scoreW ((sentencesOf (citeReplace (cleanNorm rawTwoSent))).map pyWords)
      (pyWords (citeReplace (cleanNorm rawTwoSent)))) / 2)
    rfl rfl rfl rfl
  rw [h.1 (by decide)]
  show joinSp ((((["Alpha beta.".data, "Gamma delta.".data] : List Str).zip
      ([1, 4] : List ℚ)).filter
      (fun p => decide (pyMax ([1, 4] : List ℚ) / 2 ≤ p.2))).map Prod.fst)
    = "Gamma delta.".data
  rw [show pyMax ([1, 4] : List ℚ) = 4 from by norm_num [pyMax]]
  norm_num [List.zip, List.zipWith, List.filter, joinSp]

/-! ### Claim C7 -/

/-- C7: empty input is not an error for either component: a crawl with zero
seeds returns the empty mapping, and `clean_markdown` applied to an empty or
whitespace-only string returns the empty string; neither computation fails. -/
theorem empty_inputs_well_defined {ε : Type} (fetch : Str → Except ε Page)
    (score : Scorer) (raw : Str) (hws : ∀ c ∈ raw, isPySpace c = true) :
    crawl_company_links fetch [] = [] ∧ clean_markdown score raw = [] := by
  refine ⟨rfl, ?_⟩
  have hstrip : pyStrip raw = [] := by
    unfold pyStrip
    have h1 : raw.dropWhile isPySpace = [] := List.dropWhile_eq_nil_iff.mpr hws
    rw [h1]
    rfl
  unfold clean_markdown cleanNorm
  rw [hstrip]
  rfl

/-- C7 (witness): a zero-seed crawl and a whitespace-only distillation. -/
theorem empty_inputs_well_defined_witness :
    crawl_company_links fetchW [] = [] ∧ clean_markdown scoreW ("  \n ".data) = [] :=
  empty_inputs_well_defined fetchW scoreW ("  \n ".data) (by decide)

/-! ### Claim C8 -/

theorem foldl_max_zeros :
    ∀ (r : List ℚ) (acc : ℚ), (∀ q ∈ r, q = 0) → acc = 0 → r.foldl max acc = 0 := by
  intro r
  induction r with
  | nil => intro acc _ h; exact h
  | cons b r ih =>
    intro acc hz hacc
    simp only [List.foldl_cons]
    refine ih _ (fun q hq => hz q (List.mem_cons_of_mem _ hq)) ?_
    rw [hacc, hz b (List.mem_cons_self _ _)]
    simp

/-- C8: when every sentence score is zero, `clean_markdown` does not fail: the
threshold `0.5 * max(scores)` becomes `0`, the inclusion test `score >= 0`
holds for every sentence, and the whole sentence list is retained in the body. -/
theorem clean_markdown_zero_score_degenerate (score : Scorer) (raw t : Str)
    (ss : List Str) (sc : List ℚ)
    (ht : t = citeReplace (cleanNorm raw)) (hss : ss = sentencesOf t)
    (hsc : sc = score (ss.map pyWords) (pyWords t))
    (hlen : sc.length = ss.length) (hz : ∀ q ∈ sc, q = 0) (hne : ss ≠ []) :
    pyMax sc / 2 = 0 ∧ distillBody score t = joinSp ss := by
  have hmax : pyMax sc = 0 := by
    cases hsc' : sc with
    | nil => rfl
    | cons a r =>
      show r.foldl max a = 0
      refine foldl_max_zeros r a (fun q hq => hz q (by rw [hsc']; exact List.mem_cons_of_mem _ hq)) ?_
      exact hz a (by rw [hsc']; exact List.mem_cons_self _ _)
  refine ⟨by rw [hmax]; norm_num, ?_⟩
  subst hsc
  subst hss
  subst ht
  unfold distillBody
  have hcond : (sentencesOf (citeReplace (cleanNorm raw))).isEmpty = false := by
    cases hP : sentencesOf (citeReplace (cleanNorm raw)) with
    | nil => exact absurd hP hne
    | cons a l => rfl
  simp only [hcond, Bool.false_eq_true, if_false]
  rw [hmax]
  have hfilter :
      ((sentencesOf (citeReplace (cleanNorm raw))).zip
        (score ((sentencesOf (citeReplace (cleanNorm raw))).map pyWords)
          (pyWords (citeReplace (cleanNorm raw))))).filter
        (fun p => decide ((0 : ℚ) / 2 ≤ p.2))
      = (sentencesOf (citeReplace (cleanNorm raw))).zip
        (score ((sentencesOf (citeReplace (cleanNorm raw))).map pyWords)
          (pyWords (citeReplace (cleanNorm raw)))) := by
    refine List.filter_eq_self.mpr ?_
    intro p hp
    have hp2 := (List.of_mem_zip hp).2
    rw [hz p.2 hp2]
    simp
  rw [hfilter]
  congr 1
  refine List.map_fst_zip _ _ ?_
  omega

/-- C8 (witness): an all-zero scorer on a two-sentence document retains both
sentences. -/
theorem clean_markdown_zero_score_degenerate_witness :
    pyMax (scoreZ ((sentencesOf (citeReplace (cleanNorm rawTwoSent))).map pyWords)
      (pyWords (citeReplace (cleanNorm rawTwoSent)))) / 2 = 0 ∧
    distillBody scoreZ (citeReplace (cleanNorm rawTwoSent))
      = joinSp (sentencesOf (citeReplace (cleanNorm rawTwoSent))) :=
  clean_markdown_zero_score_degenerate scoreZ rawTwoSent
    (citeReplace (cleanNorm rawTwoSent))
    (sentencesOf (citeReplace (cleanNorm rawTwoSent)))
    (scoreZ ((sentencesOf (citeReplace (cleanNorm rawTwoSent))).map pyWords)
      (pyWords (citeReplace (cleanNorm rawTwoSent))))
    rfl rfl rfl (by decide) (by decide) (by decide)

/-! ### Claim C6 -/

theorem refSection_foldl_acc :
    ∀ (tbl : List (Nat × Str)) (acc : Str),
      tbl.foldl (fun a p => a ++ refLine p) acc = acc ++ catList (tbl.map refLine) := by
  intro tbl
  induction tbl with
  | nil => intro acc; simp [catList]
  | cons p tbl ih =>
    intro acc
    simp only [List.foldl_cons, List.map_cons]
    rw [ih]
    show (acc ++ refLine p) ++ catList (tbl.map refLine)
        = acc ++ (refLine p ++ catList (tbl.map refLine))
    rw [List.append_assoc]

theorem refSection_eq_catList (tbl : List (Nat × Str)) :
    refSection tbl = catList (tbl.map refLine) := by
  unfold refSection
  rw [refSection_foldl_acc]
  rfl

/-- C6: if at least one URL was extracted, the output of `clean_markdown` is
the filtered body followed by the reference section: the `### References`
heading and one `{id}. {url}` line per distinct URL, in ascending id order
(ids `1..N` paired with the URLs in first-appearance order); if no URL was
extracted, nothing is appended. -/
theorem clean_markdown_reference_section (score : Scorer) (raw t : Str) (U : List Str)
    (ht : t = cleanNorm raw) (hU : U = extractUrls t) :
    (U ≠ [] → clean_markdown score raw
        = distillBody score (citeReplace t) ++ refHeader ++ refSection (pyEnumerate 1 U)
      ∧ refSection (pyEnumerate 1 U) = catList ((pyEnumerate 1 U).map refLine)
      ∧ (pyEnumerate 1 U).map Prod.fst = List.range' 1 U.length
      ∧ (pyEnumerate 1 U).map Prod.snd = U) ∧
    (U = [] → clean_markdown score raw = distillBody score (citeReplace t)) := by
  subst hU
  subst ht
  constructor
  · intro hne
    refine ⟨?_, refSection_eq_catList _, pyEnumerate_fst _ 1, pyEnumerate_snd _ 1⟩
    unfold clean_markdown
    have hcond : (citeTable (cleanNorm raw)).isEmpty = false := by
      unfold citeTable
      cases hP : extractUrls (cleanNorm raw) with
      | nil => exact absurd hP hne
      | cons a l => rfl
    simp only [hcond, Bool.false_eq_true, if_false]
    rfl
  · intro he
    unfold clean_markdown
    have hcond : (citeTable (cleanNorm raw)).isEmpty = true := by
      unfold citeTable
      rw [he]
      rfl
    simp only [hcond, if_true]

/-- C6 (witness): a document with one URL gets the reference section appended
after the body; the theorem instance at a concrete input. -/
theorem clean_markdown_reference_section_witness :
    clean_markdown scoreZ rawUrlSent
      = distillBody scoreZ (citeReplace (cleanNorm rawUrlSent)) ++ refHeader
        ++ refSection (pyEnumerate 1 (extractUrls (cleanNorm rawUrlSent))) :=
  ((clean_markdown_reference_section scoreZ rawUrlSent (cleanNorm rawUrlSent)
    (extractUrls (cleanNorm rawUrlSent)) rfl rfl).1 (by decide)).1
